import Mathlib

/-
Verification development for the rapidity-plot driver (src/rapidityplot.cc).

The driver program builds, for each of three string masses, a rapidity
histogram of primary hadrons produced by Pythia string fragmentation, and
overlays the three histograms in a single plot.

Real numbers (C++ doubles) are embedded as exact rationals; machine-level
floating-point rounding is outside the model.  The Pythia8 library classes
`Hist` and `HistPlot` are not part of this repository's sources, so the
histogram accumulator is modelled from the specification's contract; the
driver's own control flow is translated directly from src/rapidityplot.cc.
-/

namespace RapidityPlot

/-- Modelled from the spec: the `Histogram` accumulator (the Pythia8 `Hist`
class used at src/rapidityplot.cc:72 is library code, not part of this
repository).  Attributes follow spec §3: title, bin geometry, per-bin
counts, underflow/overflow, entry count and moment sums. -/
structure Hist where
  title : String
  binCount : ℕ
  lowEdge : ℚ
  highEdge : ℚ
  counts : ℕ → ℚ
  underflow : ℚ
  overflow : ℚ
  entries : ℕ
  sumValues : ℚ
  sumSquares : ℚ

/-- Modelled from the spec (§4.1 `create`): all accumulators start at zero,
geometry fixed at creation. -/
def Hist.create (title : String) (binCount : ℕ) (lowEdge highEdge : ℚ) : Hist :=
  { title := title
    binCount := binCount
    lowEdge := lowEdge
    highEdge := highEdge
    counts := fun _ => 0
    underflow := 0
    overflow := 0
    entries := 0
    sumValues := 0
    sumSquares := 0 }

/-- Modelled from the spec (§4.1 `fill`): bin index
`floor((value - lowEdge) / (highEdge - lowEdge) * binCount)`. -/
def Hist.binIndex (h : Hist) (v : ℚ) : ℤ :=
  ⌊(v - h.lowEdge) / (h.highEdge - h.lowEdge) * (h.binCount : ℚ)⌋

/-- Modelled from the spec (§4.1 `fill`): if the index is in `[0, binCount)`
the bucket gains `weight`; a value below `lowEdge` goes to underflow and the
remaining case (for valid geometry, exactly `value ≥ highEdge`) to overflow.
Entries and the moment sums are always updated. -/
def Hist.fill (h : Hist) (v w : ℚ) : Hist :=
  let idx := h.binIndex v
  let h1 : Hist :=
    { h with
      entries := h.entries + 1
      sumValues := h.sumValues + w * v
      sumSquares := h.sumSquares + w * v * v }
  if 0 ≤ idx ∧ idx < (h.binCount : ℤ) then
    { h1 with counts := Function.update h1.counts idx.toNat (h1.counts idx.toNat + w) }
  else if v < h.lowEdge then
    { h1 with underflow := h1.underflow + w }
  else
    { h1 with overflow := h1.overflow + w }

/-- A sequence of fills, each a (value, weight) pair, applied left to right. -/
def Hist.fillMany (h : Hist) (fills : List (ℚ × ℚ)) : Hist :=
  fills.foldl (fun acc f => acc.fill f.1 f.2) h

/-- The sum of all in-range bin counts. -/
def Hist.sumCounts (h : Hist) : ℚ :=
  ∑ i ∈ Finset.range h.binCount, h.counts i

/-- Total accumulated weight: bin counts plus underflow plus overflow. -/
def Hist.total (h : Hist) : ℚ :=
  h.sumCounts + h.underflow + h.overflow

/-- One fill changes exactly one bucket (one in-range bin, or underflow, or
overflow) and changes it by exactly the fill's weight. -/
def FillsOneBucket (h : Hist) (v w : ℚ) : Prop :=
  ((∃ i, i < h.binCount ∧
      (h.fill v w).counts = Function.update h.counts i (h.counts i + w) ∧
      (h.fill v w).underflow = h.underflow ∧ (h.fill v w).overflow = h.overflow) ∨
   ((h.fill v w).counts = h.counts ∧
      (h.fill v w).underflow = h.underflow + w ∧ (h.fill v w).overflow = h.overflow) ∨
   ((h.fill v w).counts = h.counts ∧
      (h.fill v w).underflow = h.underflow ∧ (h.fill v w).overflow = h.overflow + w))

/-- An entry of the event record after generation: the particle id, the
Pythia status code and the rapidity `y`, the only fields the driver reads
(src/rapidityplot.cc:94-96). -/
structure Particle where
  pid : ℤ
  status : ℤ
  y : ℚ

/-- The status test of src/rapidityplot.cc:95: `status > 80 && status < 90`. -/
def selectStatus (status : ℤ) : Bool :=
  decide (80 < status) && decide (status < 90)

/-- The particle loop of src/rapidityplot.cc:92-98: scan the event record
and fill the histogram with the rapidity of every particle passing the
status test. -/
def processEvent (h : Hist) (ev : List Particle) : Hist :=
  ev.foldl (fun acc p => if selectStatus p.status then acc.fill p.y 1 else acc) h

/-- Decimal digits with explicit fuel; `fuel ≥ 1` digits are produced per
unit of fuel, and any `fuel ≥ n + 1` is enough for `n`. -/
def decDigitsAux : ℕ → ℕ → List Char
  | 0, _ => []
  | fuel + 1, n =>
    if n < 10 then [Nat.digitChar n]
    else decDigitsAux fuel (n / 10) ++ [Nat.digitChar (n % 10)]

/-- Decimal digits of a natural number, most significant first (the decimal
conversion performed by the C++ stream insertion of the integral part). -/
def decDigits (n : ℕ) : List Char := decDigitsAux (n + 1) n

/-- Exactly two decimal digits (with a leading zero when needed) for a
number below 100. -/
def twoDigits (n : ℕ) : String :=
  String.mk [Nat.digitChar (n / 10 % 10), Nat.digitChar (n % 10)]

/-- Round to the nearest integer, ties to even: the rounding applied by the
C++ stream conversion of a double to fixed decimal notation. -/
def roundHalfEven (x : ℚ) : ℤ :=
  if x - ⌊x⌋ < 1 / 2 then ⌊x⌋
  else if 1 / 2 < x - ⌊x⌋ then ⌊x⌋ + 1
  else if ⌊x⌋ % 2 = 0 then ⌊x⌋ else ⌊x⌋ + 1

/-- The function of src/rapidityplot.cc:19-23: format a value in fixed
notation with two digits after the decimal point
(`ostringstream << fixed << setprecision(2)`), with machine doubles
embedded as exact rationals. -/
def to_string_2dp (val : ℚ) : String :=
  (if val < 0 then "-" else "")
    ++ String.mk (decDigits ((roundHalfEven (val * 100)).natAbs / 100))
    ++ "." ++ twoDigits ((roundHalfEven (val * 100)).natAbs % 100)

/-- The string masses of src/rapidityplot.cc:28. -/
def masses : List ℚ := [5, 20, 100]

/-- The plot colours of src/rapidityplot.cc:29. -/
def plotColours : List String := ["steelblue", "seagreen", "indianred"]

/-- The trial count of src/rapidityplot.cc:30. -/
def nEvent : ℕ := 1000000

/-- The quark id of src/rapidityplot.cc:34. -/
def qid : ℤ := 1

/-- An entry appended to the event record before generation
(src/rapidityplot.cc:82-83): id, status, colour, anticolour, momentum
components, energy and mass. -/
structure PartonIn where
  pid : ℤ
  status : ℤ
  col : ℤ
  acol : ℤ
  px : ℚ
  py : ℚ
  pz : ℚ
  e : ℚ
  m : ℚ

/-- The quark entry of src/rapidityplot.cc:82.  With `masslessQuarks = true`
(src line 37) the mass `mm` is 0, so `sqrtpos(ee*ee - mm*mm)` is exactly
`|ee|`. -/
def quarkEntry (smass : ℚ) : PartonIn :=
  ⟨qid, 23, 101, 0, 0, 0, |smass / 2|, smass / 2, 0⟩

/-- The antiquark entry of src/rapidityplot.cc:83. -/
def antiquarkEntry (smass : ℚ) : PartonIn :=
  ⟨-qid, 23, 0, 101, 0, 0, -|smass / 2|, smass / 2, 0⟩

/-- The `event.reset()` call of src/rapidityplot.cc:78: the record is
cleared whatever it held. -/
def eventReset (_ev : List PartonIn) : List PartonIn := []

/-- An `event.append(...)` call. -/
def eventAppend (ev : List PartonIn) (p : PartonIn) : List PartonIn := ev ++ [p]

/-- Lines 78-83 of src/rapidityplot.cc: reset the event record, then append
the quark and the antiquark. -/
def prepareEvent (ev : List PartonIn) (smass : ℚ) : List PartonIn :=
  eventAppend (eventAppend (eventReset ev) (quarkEntry smass)) (antiquarkEntry smass)

/-- The opaque external generator for one configuration: whether
`pythia.init()` succeeds, and per trial index the outcome of
`pythia.next()` given the prepared record — `none` for a generation
failure, otherwise the final event record. -/
structure GenOracle where
  initOk : Bool
  next : ℕ → List PartonIn → Option (List Particle)

/-- Outcome of one configuration's trial loop: the final histogram, how
many `pythia.next()` calls were made, whether the loop was stopped by a
generation failure, and the prepared records handed to the generator. -/
structure TrialsResult where
  hist : Hist
  attempted : ℕ
  failed : Bool
  prepared : List (List PartonIn)

/-- The event loop of src/rapidityplot.cc:76-99, running trials `i, i+1, …`
with the given fuel.  Each iteration resets the record, appends the q-qbar
pair, calls the generator, and on success scans the final record into the
histogram; on failure the loop breaks.  The record state passed forward
after generation is immaterial because every iteration begins with a
reset. -/
def runTrialsFrom (gen : ℕ → List PartonIn → Option (List Particle)) (smass : ℚ)
    (h : Hist) (ev : List PartonIn) (i : ℕ) : ℕ → TrialsResult
  | 0 => ⟨h, 0, false, []⟩
  | n + 1 =>
    let ev1 := prepareEvent ev smass
    match gen i ev1 with
    | none => ⟨h, 1, true, [ev1]⟩
    | some out =>
      let r := runTrialsFrom gen smass (processEvent h out) ev1 (i + 1) n
      ⟨r.hist, r.attempted + 1, r.failed, ev1 :: r.prepared⟩

/-- The histogram obtained by scanning, in order, the outcomes of trials
`i, …, i+n-1`, stopping at the first failure: the reference shape for the
histogram component of `runTrialsFrom`. -/
def histSeg (gen : ℕ → List PartonIn → Option (List Particle)) (smass : ℚ)
    (h : Hist) (i : ℕ) : ℕ → Hist
  | 0 => h
  | n + 1 =>
    match gen i (prepareEvent [] smass) with
    | none => h
    | some out => histSeg gen smass (processEvent h out) (i + 1) n

/-- The fresh histogram of src/rapidityplot.cc:72-73: 100 bins over
[-10, 10]. -/
def freshHist : Hist :=
  Hist.create "Rapidity distribution dn/dy of primary hadrons" 100 (-10) 10

/-- One configuration's run (src/rapidityplot.cc:72-99): a fresh histogram
and a fresh event record, then the trial loop for `nEvent` trials. -/
def runConfig (gen : ℕ → List PartonIn → Option (List Particle)) (smass : ℚ) :
    TrialsResult :=
  runTrialsFrom gen smass freshHist [] 0 nEvent

/-- One histogram bound to its display style and legend label, as passed to
`hpl.add` (src/rapidityplot.cc:106-107). -/
structure Series where
  hist : Hist
  styleToken : String
  label : String

/-- Observable actions of the driver, in program order: the frame call
(line 41), the per-configuration statistics printing (lines 102-103), an
`hpl.add` call (line 106), and the final `hpl.plot()` (line 111). -/
inductive TraceEv where
  | frame (plotName frameTitle xLabel yLabel : String)
  | stats
  | addSeries (s : Series)
  | render

/-- The series built at src/rapidityplot.cc:106-107: style `"--," + colour`,
label `to_string_2dp(smass) + " GeV string"`. -/
def mkSeries (h : Hist) (colour : String) (smass : ℚ) : Series :=
  ⟨h, "--," ++ colour, to_string_2dp smass ++ " GeV string"⟩

/-- The frame call of src/rapidityplot.cc:41-42. -/
def frameEv : TraceEv :=
  TraceEv.frame "rapidityplot"
    "Rapidity distributions of primary hadrons for differing string energies" "y" "n"

/-- The configurations swept: each mass with its colour
(src/rapidityplot.cc:45-46 and 106). -/
def configList : List (ℚ × String) := masses.zip plotColours

/-- The configuration loop of src/rapidityplot.cc:45-108 followed by the
final `hpl.plot()` (line 111): for each configuration, if `pythia.init()`
succeeds run the trials, print statistics and add the series, else return
exit code 1 at once; when the loop completes, render.  Produces the emitted
trace and the exit code. -/
def sweepLoop (oracle : ℕ → GenOracle) : ℕ → List (ℚ × String) → List TraceEv × ℕ
  | _, [] => ([TraceEv.render], 0)
  | i, (smass, colour) :: rest =>
    if (oracle i).initOk then
      let r := runConfig (oracle i).next smass
      let cont := sweepLoop oracle (i + 1) rest
      (TraceEv.stats :: TraceEv.addSeries (mkSeries r.hist colour smass) :: cont.1, cont.2)
    else
      ([], 1)

/-- The whole of `main` (src/rapidityplot.cc:25-113): the frame call, then
the configuration sweep, with the external generator of configuration `i`
given by `oracle i` (a fresh `Pythia` instance per configuration). -/
def runMain (oracle : ℕ → GenOracle) : List TraceEv × ℕ :=
  let r := sweepLoop oracle 0 configList
  (frameEv :: r.1, r.2)

/-- The series added, in order, in a trace. -/
def seriesOf : List TraceEv → List Series
  | [] => []
  | TraceEv.addSeries s :: tr => s :: seriesOf tr
  | _ :: tr => seriesOf tr

/-- How many render events a trace holds. -/
def countRender : List TraceEv → ℕ
  | [] => 0
  | TraceEv.render :: tr => countRender tr + 1
  | _ :: tr => countRender tr

/-- Two histograms share binning geometry: same bin count and range. -/
def SameGeom (a b : Hist) : Prop :=
  a.binCount = b.binCount ∧ a.lowEdge = b.lowEdge ∧ a.highEdge = b.highEdge

/-- A generator whose every `pythia.next()` call fails. -/
def failNext : ℕ → List PartonIn → Option (List Particle) := fun _ _ => none

/-- A generator whose every trial succeeds with an empty final record. -/
def emptyNext : ℕ → List PartonIn → Option (List Particle) := fun _ _ => some []

/-- Oracles used to exercise the driver on concrete runs: initialization
succeeds but every generation fails. -/
def immediateFailOracle : ℕ → GenOracle := fun _ => ⟨true, failNext⟩

/-- Initialization fails for every configuration. -/
def noInitOracle : ℕ → GenOracle := fun _ => ⟨false, failNext⟩

/-- Initialization succeeds and every trial yields an empty record. -/
def allEmptyOracle : ℕ → GenOracle := fun _ => ⟨true, emptyNext⟩

end RapidityPlot

namespace RapidityPlot

theorem fill_one_bucket (h : Hist) (v w : ℚ) : FillsOneBucket h v w := by
  unfold FillsOneBucket
  by_cases hin : 0 ≤ h.binIndex v ∧ h.binIndex v < (h.binCount : ℤ)
  · left
    have hi : (h.binIndex v).toNat < h.binCount := by omega
    exact ⟨(h.binIndex v).toNat, hi, by simp [Hist.fill, hin], by simp [Hist.fill, hin],
      by simp [Hist.fill, hin]⟩
  · by_cases hlo : v < h.lowEdge
    · right; left
      refine ⟨?_, ?_, ?_⟩ <;> simp [Hist.fill, hin, hlo]
    · right; right
      refine ⟨?_, ?_, ?_⟩ <;> simp [Hist.fill, hin, hlo]

theorem fill_total (h : Hist) (v w : ℚ) : (h.fill v w).total = h.total + w := by
  have hgeom : (h.fill v w).binCount = h.binCount := by
    unfold Hist.fill
    by_cases hin : 0 ≤ h.binIndex v ∧ h.binIndex v < (h.binCount : ℤ) <;>
      by_cases hlo : v < h.lowEdge <;> simp [hin, hlo]
  rcases fill_one_bucket h v w with ⟨i, hi, hc, hu, ho⟩ | ⟨hc, hu, ho⟩ | ⟨hc, hu, ho⟩
  · unfold Hist.total Hist.sumCounts
    rw [hgeom, hc, hu, ho]
    have hmem : i ∈ Finset.range h.binCount := Finset.mem_range.mpr hi
    rw [Finset.sum_update_of_mem hmem]
    have := Finset.add_sum_erase (Finset.range h.binCount) h.counts hmem
    rw [Finset.sdiff_singleton_eq_erase]
    linarith [this]
  · unfold Hist.total Hist.sumCounts
    rw [hgeom, hc, hu, ho]; ring
  · unfold Hist.total Hist.sumCounts
    rw [hgeom, hc, hu, ho]; ring

theorem fillMany_total (h : Hist) (fills : List (ℚ × ℚ)) :
    (h.fillMany fills).total = h.total + (fills.map Prod.snd).sum := by
  induction fills generalizing h with
  | nil => simp [Hist.fillMany]
  | cons f fs ih =>
      have : Hist.fillMany h (f :: fs) = Hist.fillMany (h.fill f.1 f.2) fs := rfl
      rw [this, ih, fill_total]
      simp
      ring

theorem fill_entries (h : Hist) (v w : ℚ) : (h.fill v w).entries = h.entries + 1 := by
  unfold Hist.fill
  by_cases hin : 0 ≤ h.binIndex v ∧ h.binIndex v < (h.binCount : ℤ) <;>
    by_cases hlo : v < h.lowEdge <;> simp [hin, hlo]

theorem fillMany_entries (h : Hist) (fills : List (ℚ × ℚ)) :
    (h.fillMany fills).entries = h.entries + fills.length := by
  induction fills generalizing h with
  | nil => simp [Hist.fillMany]
  | cons f fs ih =>
      have : Hist.fillMany h (f :: fs) = Hist.fillMany (h.fill f.1 f.2) fs := rfl
      rw [this, ih, fill_entries]
      simp
      omega

theorem fill_sameGeom (h : Hist) (v w : ℚ) : SameGeom (h.fill v w) h := by
  unfold SameGeom Hist.fill
  by_cases hin : 0 ≤ h.binIndex v ∧ h.binIndex v < (h.binCount : ℤ) <;>
    by_cases hlo : v < h.lowEdge <;> simp [hin, hlo]

theorem sameGeom_trans {a b c : Hist} (h1 : SameGeom a b) (h2 : SameGeom b c) :
    SameGeom a c :=
  ⟨h1.1.trans h2.1, h1.2.1.trans h2.2.1, h1.2.2.trans h2.2.2⟩

theorem processEvent_sameGeom (ev : List Particle) (h : Hist) :
    SameGeom (processEvent h ev) h := by
  induction ev generalizing h with
  | nil => exact ⟨rfl, rfl, rfl⟩
  | cons p ps ih =>
      have hstep : processEvent h (p :: ps)
          = processEvent (if selectStatus p.status then h.fill p.y 1 else h) ps := by
        simp [processEvent]
      rw [hstep]
      by_cases hs : selectStatus p.status
      · simp only [hs, if_true]
        exact sameGeom_trans (ih (h.fill p.y 1)) (fill_sameGeom h p.y 1)
      · simp only [hs, if_false]
        exact ih h

theorem runTrialsFrom_sameGeom (gen : ℕ → List PartonIn → Option (List Particle))
    (smass : ℚ) (n : ℕ) :
    ∀ (h : Hist) (ev : List PartonIn) (i : ℕ),
      SameGeom (runTrialsFrom gen smass h ev i n).hist h := by
  induction n with
  | zero => intro h ev i; exact ⟨rfl, rfl, rfl⟩
  | succ n ih =>
      intro h ev i
      rcases hg : gen i (prepareEvent ev smass) with _ | out
      · simp [runTrialsFrom, hg, SameGeom]
      · simp only [runTrialsFrom, hg]
        exact sameGeom_trans (ih _ _ _) (processEvent_sameGeom out h)

theorem prepareEvent_const (ev : List PartonIn) (smass : ℚ) :
    prepareEvent ev smass = [quarkEntry smass, antiquarkEntry smass] := rfl

theorem runTrialsFrom_hist (gen : ℕ → List PartonIn → Option (List Particle))
    (smass : ℚ) (n : ℕ) :
    ∀ (h : Hist) (ev : List PartonIn) (i : ℕ),
      (runTrialsFrom gen smass h ev i n).hist = histSeg gen smass h i n := by
  induction n with
  | zero => intro h ev i; rfl
  | succ n ih =>
      intro h ev i
      rcases hg : gen i (prepareEvent [] smass) with _ | out
      · have hg' : gen i (prepareEvent ev smass) = none := by
          rw [prepareEvent_const]; exact hg
        simp [runTrialsFrom, histSeg, hg, hg']
      · have hg' : gen i (prepareEvent ev smass) = some out := by
          rw [prepareEvent_const]; exact hg
        simp only [runTrialsFrom, histSeg, hg, hg']
        exact ih _ _ _

theorem runTrialsFrom_prepared (gen : ℕ → List PartonIn → Option (List Particle))
    (smass : ℚ) (n : ℕ) :
    ∀ (h : Hist) (ev : List PartonIn) (i : ℕ),
      ∀ p ∈ (runTrialsFrom gen smass h ev i n).prepared,
        p = [quarkEntry smass, antiquarkEntry smass] := by
  induction n with
  | zero => intro h ev i p hp; simp [runTrialsFrom] at hp
  | succ n ih =>
      intro h ev i p hp
      rcases hg : gen i (prepareEvent ev smass) with _ | out
      · simp [runTrialsFrom, hg] at hp
        rw [hp, prepareEvent_const]
      · simp only [runTrialsFrom, hg, List.mem_cons] at hp
        rcases hp with hp | hp
        · rw [hp, prepareEvent_const]
        · exact ih _ _ _ p hp

theorem runTrialsFrom_noFail (gen : ℕ → List PartonIn → Option (List Particle))
    (smass : ℚ) (n : ℕ) :
    ∀ (h : Hist) (ev : List PartonIn) (i : ℕ),
      (∀ j, i ≤ j → j < i + n → gen j [quarkEntry smass, antiquarkEntry smass] ≠ none) →
      (runTrialsFrom gen smass h ev i n).attempted = n ∧
      (runTrialsFrom gen smass h ev i n).failed = false := by
  induction n with
  | zero => intro h ev i _; exact ⟨rfl, rfl⟩
  | succ n ih =>
      intro h ev i hok
      rcases hg : gen i (prepareEvent ev smass) with _ | out
      · exact absurd (by rw [prepareEvent_const] at hg; exact hg)
          (hok i le_rfl (by omega))
      · have := ih (processEvent h out) (prepareEvent ev smass) (i + 1)
          (fun j hj1 hj2 => hok j (by omega) (by omega))
        simp only [runTrialsFrom, hg]
        exact ⟨by rw [this.1], this.2⟩

theorem runTrialsFrom_firstFail (gen : ℕ → List PartonIn → Option (List Particle))
    (smass : ℚ) (n : ℕ) :
    ∀ (h : Hist) (ev : List PartonIn) (i k : ℕ), i ≤ k → k < i + n →
      gen k [quarkEntry smass, antiquarkEntry smass] = none →
      (∀ j, i ≤ j → j < k → gen j [quarkEntry smass, antiquarkEntry smass] ≠ none) →
      (runTrialsFrom gen smass h ev i n).hist = histSeg gen smass h i (k - i) ∧
      (runTrialsFrom gen smass h ev i n).attempted = k - i + 1 ∧
      (runTrialsFrom gen smass h ev i n).failed = true := by
  induction n with
  | zero => intro h ev i k h1 h2 _ _; omega
  | succ n ih =>
      intro h ev i k hik hkn hfail hok
      by_cases hik0 : i = k
      · subst hik0
        have hg : gen i (prepareEvent ev smass) = none := by
          rw [prepareEvent_const]; exact hfail
        simp [runTrialsFrom, hg, runTrialsFrom_hist, histSeg, Nat.sub_self]
      · have hlt : i < k := by omega
        rcases hg : gen i (prepareEvent ev smass) with _ | out
        · exact absurd (by rw [prepareEvent_const] at hg; exact hg)
            (hok i le_rfl hlt)
        · have hrec := ih (processEvent h out) (prepareEvent ev smass) (i + 1) k
            (by omega) (by omega) hfail
            (fun j hj1 hj2 => hok j (by omega) hj2)
          have hg0 : gen i (prepareEvent [] smass) = some out := by
            rw [prepareEvent_const]
            rw [prepareEvent_const] at hg
            exact hg
          have hseg : histSeg gen smass h i (k - i)
              = histSeg gen smass (processEvent h out) (i + 1) (k - (i + 1)) := by
            have hksub : k - i = (k - (i + 1)) + 1 := by omega
            rw [hksub]
            simp [histSeg, hg0]
          simp only [runTrialsFrom, hg]
          refine ⟨?_, ?_, hrec.2.2⟩
          · rw [hseg]; exact hrec.1
          · rw [hrec.2.1]; omega

theorem processEvent_fillMany (ev : List Particle) (h : Hist) :
    processEvent h ev
      = h.fillMany ((ev.filter fun p => selectStatus p.status).map fun p => (p.y, 1)) := by
  induction ev generalizing h with
  | nil => rfl
  | cons p ps ih =>
      have hstep : processEvent h (p :: ps)
          = processEvent (if selectStatus p.status then h.fill p.y 1 else h) ps := by
        simp [processEvent]
      rw [hstep]
      by_cases hs : selectStatus p.status
      · simp only [hs, if_true, List.filter_cons, List.map_cons]
        rw [ih]
        rfl
      · simp only [hs, if_false]
        rw [ih]
        simp [List.filter_cons, hs]

theorem selectStatus_iff (s : ℤ) : selectStatus s = true ↔ 81 ≤ s ∧ s ≤ 89 := by
  simp only [selectStatus, Bool.and_eq_true, decide_eq_true_eq]
  omega

theorem configList_eq :
    configList = [(5, "steelblue"), (20, "seagreen"), (100, "indianred")] := rfl

theorem seriesOf_stats (tr : List TraceEv) :
    seriesOf (TraceEv.stats :: tr) = seriesOf tr := rfl

theorem seriesOf_add (s : Series) (tr : List TraceEv) :
    seriesOf (TraceEv.addSeries s :: tr) = s :: seriesOf tr := rfl

theorem sweepLoop_cons_initOk (oracle : ℕ → GenOracle) (i : ℕ) (smass : ℚ)
    (colour : String) (rest : List (ℚ × String))
    (hI : (oracle i).initOk = true) :
    sweepLoop oracle i ((smass, colour) :: rest)
      = (TraceEv.stats
          :: TraceEv.addSeries (mkSeries (runConfig (oracle i).next smass).hist colour smass)
          :: (sweepLoop oracle (i + 1) rest).1,
         (sweepLoop oracle (i + 1) rest).2) := by
  simp [sweepLoop, hI]

theorem sweepLoop_cons_initFail (oracle : ℕ → GenOracle) (i : ℕ) (smass : ℚ)
    (colour : String) (rest : List (ℚ × String))
    (hI : (oracle i).initOk = false) :
    sweepLoop oracle i ((smass, colour) :: rest) = ([], 1) := by
  simp [sweepLoop, hI]

theorem sweepLoop_shape (oracle : ℕ → GenOracle) :
    ∀ (l : List (ℚ × String)) (i : ℕ),
      ∃ pre, (sweepLoop oracle i l).1
          = pre ++ (if (sweepLoop oracle i l).2 = 0 then [TraceEv.render] else []) ∧
        ∀ e ∈ pre, e ≠ TraceEv.render ∧ ∀ a b c d, e ≠ TraceEv.frame a b c d := by
  intro l
  induction l with
  | nil =>
      intro i
      exact ⟨[], by simp [sweepLoop], by simp⟩
  | cons mc rest ih =>
      intro i
      rcases mc with ⟨smass, colour⟩
      by_cases hI : (oracle i).initOk
      · obtain ⟨pre, hpre, hmem⟩ := ih (i + 1)
        refine ⟨TraceEv.stats
            :: TraceEv.addSeries (mkSeries (runConfig (oracle i).next smass).hist colour smass)
            :: pre, ?_, ?_⟩
        · rw [sweepLoop_cons_initOk oracle i smass colour rest hI]
          simp only
          rw [hpre]
          simp
        · intro e he
          simp only [List.mem_cons] at he
          rcases he with rfl | rfl | he
          · exact ⟨by simp, by simp⟩
          · exact ⟨by simp, by simp⟩
          · exact hmem e he
      · have hI' : (oracle i).initOk = false := by simpa using hI
        refine ⟨[], ?_, by simp⟩
        rw [sweepLoop_cons_initFail oracle i smass colour rest hI']
        simp

theorem sweepLoop_series_geom (oracle : ℕ → GenOracle) :
    ∀ (l : List (ℚ × String)) (i : ℕ) (s : Series),
      TraceEv.addSeries s ∈ (sweepLoop oracle i l).1 → SameGeom s.hist freshHist := by
  intro l
  induction l with
  | nil => intro i s hs; simp [sweepLoop] at hs
  | cons mc rest ih =>
      intro i s hs
      rcases mc with ⟨smass, colour⟩
      by_cases hI : (oracle i).initOk
      · rw [sweepLoop_cons_initOk oracle i smass colour rest hI] at hs
        simp only [List.mem_cons] at hs
        rcases hs with hs | hs | hs
        · exact absurd hs (by simp)
        · have hser : s = mkSeries (runConfig (oracle i).next smass).hist colour smass := by
            injection hs
          rw [hser]
          exact runTrialsFrom_sameGeom (oracle i).next smass nEvent freshHist [] 0
        · exact ih (i + 1) s hs
      · have hI' : (oracle i).initOk = false := by simpa using hI
        rw [sweepLoop_cons_initFail oracle i smass colour rest hI'] at hs
        simp at hs

theorem sweepLoop_initFail (oracle : ℕ → GenOracle) :
    ∀ (l : List (ℚ × String)) (i d : ℕ), d < l.length →
      (∀ j, j < d → (oracle (i + j)).initOk = true) →
      (oracle (i + d)).initOk = false →
      (sweepLoop oracle i l).2 = 1 ∧
      TraceEv.render ∉ (sweepLoop oracle i l).1 ∧
      (seriesOf (sweepLoop oracle i l).1).length = d := by
  intro l
  induction l with
  | nil => intro i d hd; simp at hd
  | cons mc rest ih =>
      intro i d hd hok hfail
      rcases mc with ⟨smass, colour⟩
      rcases d with _ | e
      · have hI : (oracle i).initOk = false := by simpa using hfail
        rw [sweepLoop_cons_initFail oracle i smass colour rest hI]
        simp [seriesOf]
      · have hI : (oracle i).initOk = true := by simpa using hok 0 (by omega)
        have hrec := ih (i + 1) e (by simpa using hd)
          (fun j hj => by
            have := hok (j + 1) (by omega)
            rwa [show i + (j + 1) = i + 1 + j by omega] at this)
          (by rwa [show i + (e + 1) = i + 1 + e by omega] at hfail)
        rw [sweepLoop_cons_initOk oracle i smass colour rest hI]
        refine ⟨hrec.1, ?_, ?_⟩
        · simp only [List.mem_cons, not_or]
          exact ⟨by simp, by simp, hrec.2.1⟩
        · rw [seriesOf_stats, seriesOf_add, List.length_cons, hrec.2.2]

theorem runMain_allInit (oracle : ℕ → GenOracle)
    (h0 : (oracle 0).initOk = true) (h1 : (oracle 1).initOk = true)
    (h2 : (oracle 2).initOk = true) :
    runMain oracle
      = ([frameEv, TraceEv.stats,
          TraceEv.addSeries (mkSeries (runConfig (oracle 0).next 5).hist "steelblue" 5),
          TraceEv.stats,
          TraceEv.addSeries (mkSeries (runConfig (oracle 1).next 20).hist "seagreen" 20),
          TraceEv.stats,
          TraceEv.addSeries (mkSeries (runConfig (oracle 2).next 100).hist "indianred" 100),
          TraceEv.render], 0) := by
  rw [runMain, configList_eq]
  rw [sweepLoop_cons_initOk oracle 0 5 "steelblue" _ h0]
  rw [sweepLoop_cons_initOk oracle 1 20 "seagreen" _ h1]
  rw [sweepLoop_cons_initOk oracle 2 100 "indianred" _ h2]
  rfl

theorem str_empty_append (s : String) : "" ++ s = s := by
  cases s
  rfl

theorem roundHalfEven_intCast (z : ℤ) : roundHalfEven (z : ℚ) = z := by
  unfold roundHalfEven
  rw [Int.floor_intCast]
  norm_num

theorem roundHalfEven_close (x : ℚ) : |((roundHalfEven x : ℤ) : ℚ) - x| ≤ 1 / 2 := by
  have h1 : ((⌊x⌋ : ℤ) : ℚ) ≤ x := Int.floor_le x
  have h2 : x < ((⌊x⌋ : ℤ) : ℚ) + 1 := Int.lt_floor_add_one x
  unfold roundHalfEven
  split_ifs with ha hb hc
  · rw [abs_le]; constructor <;> linarith
  · rw [abs_le]; push_cast; constructor <;> linarith
  · rw [abs_le]; constructor <;> linarith
  · rw [abs_le]; push_cast; constructor <;> linarith

theorem to_string_2dp_nat (n : ℕ) :
    to_string_2dp (n : ℚ) = String.mk (decDigits n) ++ ".00" := by
  unfold to_string_2dp
  have hcast : ((n : ℚ) * 100) = (((n * 100 : ℕ) : ℤ) : ℚ) := by push_cast; ring
  rw [hcast, roundHalfEven_intCast]
  have habs : ((n * 100 : ℕ) : ℤ).natAbs = n * 100 := Int.natAbs_ofNat _
  rw [habs]
  have hdiv : n * 100 / 100 = n := Nat.mul_div_cancel n (by norm_num)
  have hmod : n * 100 % 100 = 0 := Nat.mul_mod_left n 100
  rw [hdiv, hmod]
  have hsign : ¬ ((n : ℚ) < 0) := not_lt.mpr (Nat.cast_nonneg n)
  rw [if_neg hsign, str_empty_append]
  have h00 : twoDigits 0 = "00" := rfl
  rw [h00, String.append_assoc]
  rfl

theorem to_string_2dp_five : to_string_2dp 5 = "5.00" := by
  have h : (5 : ℚ) = ((5 : ℕ) : ℚ) := by norm_num
  rw [h, to_string_2dp_nat]
  rfl

theorem to_string_2dp_twenty : to_string_2dp 20 = "20.00" := by
  have h : (20 : ℚ) = ((20 : ℕ) : ℚ) := by norm_num
  rw [h, to_string_2dp_nat]
  rfl

theorem to_string_2dp_hundred : to_string_2dp 100 = "100.00" := by
  have h : (100 : ℚ) = ((100 : ℕ) : ℚ) := by norm_num
  rw [h, to_string_2dp_nat]
  rfl

theorem digitChar_isDigit (n : ℕ) (h : n < 10) : (Nat.digitChar n).isDigit = true := by
  interval_cases n <;> decide

theorem decDigitsAux_digits :
    ∀ fuel n, ∀ c ∈ decDigitsAux fuel n, c.isDigit = true := by
  intro fuel
  induction fuel with
  | zero => intro n c hc; simp [decDigitsAux] at hc
  | succ fuel ih =>
      intro n c hc
      by_cases h : n < 10
      · simp [decDigitsAux, h] at hc
        rw [hc]
        exact digitChar_isDigit n h
      · simp only [decDigitsAux, h, if_false, List.mem_append, List.mem_singleton] at hc
        rcases hc with hc | hc
        · exact ih (n / 10) c hc
        · rw [hc]
          exact digitChar_isDigit (n % 10) (Nat.mod_lt n (by norm_num))

theorem decDigits_digits (n : ℕ) : ∀ c ∈ decDigits n, c.isDigit = true :=
  decDigitsAux_digits (n + 1) n

theorem twoDigits_length (m : ℕ) : (twoDigits m).length = 2 := rfl

theorem twoDigits_digits (m : ℕ) : ∀ c ∈ (twoDigits m).data, c.isDigit = true := by
  intro c hc
  simp only [twoDigits, String.data, List.mem_cons, List.not_mem_nil, or_false] at hc
  rcases hc with rfl | rfl
  · exact digitChar_isDigit _ (Nat.mod_lt _ (by norm_num))
  · exact digitChar_isDigit _ (Nat.mod_lt m (by norm_num))

theorem mkSeries_five (g : Hist) :
    mkSeries g "steelblue" 5 = ⟨g, "--,steelblue", "5.00 GeV string"⟩ := by
  unfold mkSeries
  rw [to_string_2dp_five]
  rfl

theorem mkSeries_twenty (g : Hist) :
    mkSeries g "seagreen" 20 = ⟨g, "--,seagreen", "20.00 GeV string"⟩ := by
  unfold mkSeries
  rw [to_string_2dp_twenty]
  rfl

theorem mkSeries_hundred (g : Hist) :
    mkSeries g "indianred" 100 = ⟨g, "--,indianred", "100.00 GeV string"⟩ := by
  unfold mkSeries
  rw [to_string_2dp_hundred]
  rfl

/-- Claim C1: after any sequence of fills on a freshly created Histogram, the
sum of the bin counts plus underflow plus overflow equals the sum of the fill
weights; for weight-1 fills it equals the number of fills (and the `entries`
counter); and each fill increments exactly one bucket by exactly the fill's
weight. -/
theorem C1_count_conservation (t : String) (nB : ℕ) (lo hi : ℚ)
    (fills : List (ℚ × ℚ)) :
    ((Hist.create t nB lo hi).fillMany fills).total = (fills.map Prod.snd).sum ∧
    ((∀ f ∈ fills, f.2 = 1) →
      ((Hist.create t nB lo hi).fillMany fills).total = (fills.length : ℚ) ∧
      ((Hist.create t nB lo hi).fillMany fills).total
        = (((Hist.create t nB lo hi).fillMany fills).entries : ℚ)) ∧
    (∀ (h : Hist) (v w : ℚ), FillsOneBucket h v w) := by
  have hzero : (Hist.create t nB lo hi).total = 0 := by
    simp [Hist.create, Hist.total, Hist.sumCounts]
  have htot := fillMany_total (Hist.create t nB lo hi) fills
  rw [hzero, zero_add] at htot
  have hsum1 : ∀ l : List (ℚ × ℚ), (∀ f ∈ l, f.2 = 1) →
      (l.map Prod.snd).sum = (l.length : ℚ) := by
    intro l
    induction l with
    | nil => intro _; simp
    | cons a as ih =>
        intro hall
        have ha : a.2 = 1 := hall a (List.mem_cons_self a as)
        have has := ih (fun f hf => hall f (List.mem_cons_of_mem a hf))
        simp only [List.map_cons, List.sum_cons, List.length_cons, ha, has]
        push_cast
        ring
  refine ⟨htot, fun hall => ⟨?_, ?_⟩, fill_one_bucket⟩
  · rw [htot, hsum1 fills hall]
  · rw [htot, hsum1 fills hall, fillMany_entries]
    simp [Hist.create]

/-- Claim C1 witness: one weight-1 fill on a fresh histogram. -/
theorem C1_count_conservation_witness :
    ((Hist.create "h" 100 (-10) 10).fillMany [((0 : ℚ), (1 : ℚ))]).total
      = ([((0 : ℚ), (1 : ℚ))].map Prod.snd).sum ∧
    ((Hist.create "h" 100 (-10) 10).fillMany [((0 : ℚ), (1 : ℚ))]).total = (1 : ℚ) := by
  have h := C1_count_conservation "h" 100 (-10) 10 [((0 : ℚ), (1 : ℚ))]
  have hall : ∀ f ∈ [((0 : ℚ), (1 : ℚ))], f.2 = 1 := by
    intro f hf
    simp only [List.mem_singleton] at hf
    rw [hf]
  refine ⟨h.1, ?_⟩
  have h2 := (h.2.1 hall).1
  simpa using h2

/-- Claim C2: the particle scan fills the histogram with a particle's
rapidity exactly when its status passes the check `80 < status < 90`, which
holds exactly for integer statuses in the inclusive range 81..89; the fills
performed are exactly the rapidities of the qualifying particles, in
order. -/
theorem C2_status_selection :
    (∀ s : ℤ, selectStatus s = true ↔ 81 ≤ s ∧ s ≤ 89) ∧
    (∀ (h : Hist) (ev : List Particle),
      processEvent h ev
        = h.fillMany ((ev.filter fun p => selectStatus p.status).map fun p => (p.y, 1))) :=
  ⟨selectStatus_iff, fun h ev => processEvent_fillMany ev h⟩

/-- Claim C3: when generation first fails at trial `k < nEvent` of an
initialized configuration, the trial loop stops having attempted `k + 1`
generations, the histogram holds exactly the fills of the `k` completed
trials, and the driver still prints statistics, still adds the series built
from the partial histogram, and proceeds to the next configuration with the
same continuation trace and exit code. -/
theorem C3_generation_failure_recovery (oracle : ℕ → GenOracle) (i k : ℕ)
    (smass : ℚ) (colour : String) (rest : List (ℚ × String))
    (hI : (oracle i).initOk = true)
    (hk : k < nEvent)
    (hfail : (oracle i).next k [quarkEntry smass, antiquarkEntry smass] = none)
    (hbefore : ∀ j, j < k →
      (oracle i).next j [quarkEntry smass, antiquarkEntry smass] ≠ none) :
    (runConfig (oracle i).next smass).hist
        = histSeg (oracle i).next smass freshHist 0 k ∧
    (runConfig (oracle i).next smass).attempted = k + 1 ∧
    (runConfig (oracle i).next smass).failed = true ∧
    sweepLoop oracle i ((smass, colour) :: rest)
      = (TraceEv.stats
          :: TraceEv.addSeries (mkSeries (runConfig (oracle i).next smass).hist colour smass)
          :: (sweepLoop oracle (i + 1) rest).1,
         (sweepLoop oracle (i + 1) rest).2) := by
  have h := runTrialsFrom_firstFail (oracle i).next smass nEvent freshHist [] 0 k
    (by omega) (by omega) hfail (fun j _ hj2 => hbefore j hj2)
  refine ⟨?_, ?_, h.2.2, sweepLoop_cons_initOk oracle i smass colour rest hI⟩
  · have h1 := h.1
    rw [Nat.sub_zero] at h1
    exact h1
  · have h2 := h.2.1
    rw [Nat.sub_zero] at h2
    exact h2

/-- Claim C3 witness: a configuration whose very first generation fails. -/
theorem C3_generation_failure_recovery_witness :
    (runConfig (immediateFailOracle 0).next 5).hist
        = histSeg (immediateFailOracle 0).next 5 freshHist 0 0 ∧
    (runConfig (immediateFailOracle 0).next 5).attempted = 1 ∧
    (runConfig (immediateFailOracle 0).next 5).failed = true ∧
    sweepLoop immediateFailOracle 0 [(5, "steelblue")]
      = (TraceEv.stats
          :: TraceEv.addSeries
              (mkSeries (runConfig (immediateFailOracle 0).next 5).hist "steelblue" 5)
          :: (sweepLoop immediateFailOracle 1 []).1,
         (sweepLoop immediateFailOracle 1 []).2) :=
  C3_generation_failure_recovery immediateFailOracle 0 0 5 "steelblue" []
    rfl (by decide) rfl (fun j hj => absurd hj (Nat.not_lt_zero j))

/-- Claim C4: every series ever added to the plot over the whole run is
built on a histogram with 100 bins over the range [-10, 10], so all series
share identical binning geometry and a geometry mismatch cannot arise. -/
theorem C4_uniform_geometry (oracle : ℕ → GenOracle) (s : Series)
    (hs : TraceEv.addSeries s ∈ (runMain oracle).1) :
    s.hist.binCount = 100 ∧ s.hist.lowEdge = -10 ∧ s.hist.highEdge = 10 := by
  have hmem : TraceEv.addSeries s ∈ (sweepLoop oracle 0 configList).1 := by
    have hsplit : (runMain oracle).1 = frameEv :: (sweepLoop oracle 0 configList).1 := rfl
    rw [hsplit] at hs
    simp only [List.mem_cons] at hs
    rcases hs with hs | hs
    · exact absurd hs (by simp [frameEv])
    · exact hs
  have hg := sweepLoop_series_geom oracle configList 0 s hmem
  exact ⟨hg.1, hg.2.1, hg.2.2⟩

/-- Claim C4 witness: the first series of a run whose generations all fail
immediately. -/
theorem C4_uniform_geometry_witness :
    (mkSeries (runConfig (immediateFailOracle 0).next 5).hist "steelblue" 5).hist.binCount
        = 100 ∧
    (mkSeries (runConfig (immediateFailOracle 0).next 5).hist "steelblue" 5).hist.lowEdge
        = -10 ∧
    (mkSeries (runConfig (immediateFailOracle 0).next 5).hist "steelblue" 5).hist.highEdge
        = 10 :=
  C4_uniform_geometry immediateFailOracle _ (by
    rw [runMain_allInit immediateFailOracle rfl rfl rfl]
    simp)

/-- Claim C5: a run in which every configuration initializes produces
exactly three series, in insertion order for string masses 5, 20 and
100 GeV, with labels "5.00 GeV string", "20.00 GeV string",
"100.00 GeV string", colours steelblue, seagreen and indianred, each built
on a histogram with 100 bins over [-10, 10], followed by a single
render. -/
theorem C5_three_series (oracle : ℕ → GenOracle)
    (h0 : (oracle 0).initOk = true) (h1 : (oracle 1).initOk = true)
    (h2 : (oracle 2).initOk = true) :
    ∃ g5 g20 g100 : Hist,
      (runMain oracle).1
        = [frameEv, TraceEv.stats,
           TraceEv.addSeries ⟨g5, "--,steelblue", "5.00 GeV string"⟩,
           TraceEv.stats,
           TraceEv.addSeries ⟨g20, "--,seagreen", "20.00 GeV string"⟩,
           TraceEv.stats,
           TraceEv.addSeries ⟨g100, "--,indianred", "100.00 GeV string"⟩,
           TraceEv.render] ∧
      (runMain oracle).2 = 0 ∧
      (g5.binCount = 100 ∧ g5.lowEdge = -10 ∧ g5.highEdge = 10) ∧
      (g20.binCount = 100 ∧ g20.lowEdge = -10 ∧ g20.highEdge = 10) ∧
      (g100.binCount = 100 ∧ g100.lowEdge = -10 ∧ g100.highEdge = 10) := by
  have hm := runMain_allInit oracle h0 h1 h2
  have hg5 := runTrialsFrom_sameGeom (oracle 0).next 5 nEvent freshHist [] 0
  have hg20 := runTrialsFrom_sameGeom (oracle 1).next 20 nEvent freshHist [] 0
  have hg100 := runTrialsFrom_sameGeom (oracle 2).next 100 nEvent freshHist [] 0
  refine ⟨(runConfig (oracle 0).next 5).hist, (runConfig (oracle 1).next 20).hist,
    (runConfig (oracle 2).next 100).hist, ?_, ?_,
    ⟨hg5.1, hg5.2.1, hg5.2.2⟩, ⟨hg20.1, hg20.2.1, hg20.2.2⟩,
    ⟨hg100.1, hg100.2.1, hg100.2.2⟩⟩
  · simp only [hm, mkSeries_five, mkSeries_twenty, mkSeries_hundred]
  · simp only [hm]

/-- Claim C5 witness: a concrete all-initialized run (every generation
fails at once, which leaves all three series present with fresh
histograms). -/
theorem C5_three_series_witness :
    ∃ g5 g20 g100 : Hist,
      (runMain immediateFailOracle).1
        = [frameEv, TraceEv.stats,
           TraceEv.addSeries ⟨g5, "--,steelblue", "5.00 GeV string"⟩,
           TraceEv.stats,
           TraceEv.addSeries ⟨g20, "--,seagreen", "20.00 GeV string"⟩,
           TraceEv.stats,
           TraceEv.addSeries ⟨g100, "--,indianred", "100.00 GeV string"⟩,
           TraceEv.render] ∧
      (runMain immediateFailOracle).2 = 0 ∧
      (g5.binCount = 100 ∧ g5.lowEdge = -10 ∧ g5.highEdge = 10) ∧
      (g20.binCount = 100 ∧ g20.lowEdge = -10 ∧ g20.highEdge = 10) ∧
      (g100.binCount = 100 ∧ g100.lowEdge = -10 ∧ g100.highEdge = 10) :=
  C5_three_series immediateFailOracle rfl rfl rfl

/-- If any configuration in the remaining sweep fails to initialize, the
sweep exits with code 1, emits no render, and adds at most as many series
as there are configurations before the failing one. -/
theorem sweepLoop_existsInitFail (oracle : ℕ → GenOracle) :
    ∀ (l : List (ℚ × String)) (i0 d : ℕ), d < l.length →
      (oracle (i0 + d)).initOk = false →
      (sweepLoop oracle i0 l).2 = 1 ∧
      TraceEv.render ∉ (sweepLoop oracle i0 l).1 ∧
      (seriesOf (sweepLoop oracle i0 l).1).length ≤ d := by
  intro l
  induction l with
  | nil => intro i0 d hd; simp at hd
  | cons mc rest ih =>
      intro i0 d hd hfail
      rcases mc with ⟨smass, colour⟩
      by_cases hI : (oracle i0).initOk
      · rcases d with _ | e
        · exact absurd (by simpa using hfail) (by simpa using hI)
        · have hrec := ih (i0 + 1) e (by simpa using hd)
            (by rwa [show i0 + (e + 1) = i0 + 1 + e by omega] at hfail)
          rw [sweepLoop_cons_initOk oracle i0 smass colour rest hI]
          refine ⟨hrec.1, ?_, ?_⟩
          · simp only [List.mem_cons, not_or]
            exact ⟨by simp, by simp, hrec.2.1⟩
          · rw [seriesOf_stats, seriesOf_add, List.length_cons]
            omega
      · have hI' : (oracle i0).initOk = false := by simpa using hI
        rw [sweepLoop_cons_initFail oracle i0 smass colour rest hI']
        simp [seriesOf]

/-- Claim C6: if the generator of any configuration fails to initialize,
the run terminates with exit code 1 after the first such failure, render is
never reached, and at most the earlier configurations' series were added —
none for the failing configuration (exactly the earlier ones when all
earlier configurations initialized). -/
theorem C6_init_failure (oracle : ℕ → GenOracle) (i : ℕ)
    (hi : i < configList.length)
    (hfail : (oracle i).initOk = false) :
    (runMain oracle).2 = 1 ∧
    TraceEv.render ∉ (runMain oracle).1 ∧
    (seriesOf (runMain oracle).1).length ≤ i ∧
    ((∀ j, j < i → (oracle j).initOk = true) →
      (seriesOf (runMain oracle).1).length = i) := by
  have h := sweepLoop_existsInitFail oracle configList 0 i hi (by simpa using hfail)
  have hsplit : (runMain oracle).1 = frameEv :: (sweepLoop oracle 0 configList).1 := rfl
  have hcode : (runMain oracle).2 = (sweepLoop oracle 0 configList).2 := rfl
  have hso : seriesOf (frameEv :: (sweepLoop oracle 0 configList).1)
      = seriesOf (sweepLoop oracle 0 configList).1 := rfl
  refine ⟨by rw [hcode]; exact h.1, ?_, ?_, ?_⟩
  · rw [hsplit]
    simp only [List.mem_cons, not_or]
    exact ⟨by simp [frameEv], h.2.1⟩
  · rw [hsplit, hso]
    exact h.2.2
  · intro hok
    have hfirst := sweepLoop_initFail oracle configList 0 i hi
      (fun j hj => by simpa using hok j hj)
      (by simpa using hfail)
    rw [hsplit, hso]
    exact hfirst.2.2

/-- Claim C6 witness: initialization fails for the very first
configuration. -/
theorem C6_init_failure_witness :
    (runMain noInitOracle).2 = 1 ∧
    TraceEv.render ∉ (runMain noInitOracle).1 ∧
    (seriesOf (runMain noInitOracle).1).length = 0 := by
  have h := C6_init_failure noInitOracle 0 (by decide) rfl
  exact ⟨h.1, h.2.1, h.2.2.2 (fun j hj => absurd hj (Nat.not_lt_zero j))⟩

/-- Claim C7 counterexample: in the execution whose first configuration
fails to initialize, the program exits before `hpl.plot()` and render is
invoked zero times, so it is not the case that render is invoked exactly
once in every execution. -/
theorem C7_counterexample : ¬ (countRender (runMain noInitOracle).1 = 1) := by
  decide

/-- Claim C7 (amended): in every execution the frame metadata is set
exactly once, at the very start and hence before every series add; no event
at all — in particular no add — follows a render, so render occurs at most
once and only as the final action; and in every execution in which all
configurations initialize (so the run completes), render is invoked exactly
once, after all series were added. -/
theorem C7_lifecycle (oracle : ℕ → GenOracle) :
    (∃ rest, (runMain oracle).1 = frameEv :: rest ∧
      ∀ a b c d, TraceEv.frame a b c d ∉ rest) ∧
    (∃ pre, (runMain oracle).1
        = pre ++ (if (runMain oracle).2 = 0 then [TraceEv.render] else []) ∧
      TraceEv.render ∉ pre) ∧
    ((∀ i, i < configList.length → (oracle i).initOk = true) →
      (runMain oracle).2 = 0) := by
  obtain ⟨pre, hpre, hmem⟩ := sweepLoop_shape oracle configList 0
  have hsplit : (runMain oracle).1 = frameEv :: (sweepLoop oracle 0 configList).1 := rfl
  have hcode : (runMain oracle).2 = (sweepLoop oracle 0 configList).2 := rfl
  refine ⟨⟨(sweepLoop oracle 0 configList).1, hsplit, ?_⟩,
    ⟨frameEv :: pre, ?_, ?_⟩, ?_⟩
  · intro a b c d hmem'
    rw [hpre] at hmem'
    rcases List.mem_append.mp hmem' with hin | hin
    · exact (hmem _ hin).2 a b c d rfl
    · revert hin
      split_ifs <;> simp
  · rw [hsplit, hcode, hpre]
    simp
  · intro hmem'
    simp only [List.mem_cons] at hmem'
    rcases hmem' with h | h
    · simp [frameEv] at h
    · exact absurd rfl (hmem _ h).1
  · intro hall
    have hm := runMain_allInit oracle
      (hall 0 (by decide)) (hall 1 (by decide)) (hall 2 (by decide))
    simp only [hm]

/-- Claim C7 witness: a run whose configurations all initialize exits with
code 0 (and so renders exactly once). -/
theorem C7_lifecycle_witness : (runMain immediateFailOracle).2 = 0 :=
  (C7_lifecycle immediateFailOracle).2.2 (fun _ _ => rfl)

/-- Claim C8: every configuration's trial loop runs the same fixed count
`nEvent = 1000000`: whenever no generation failure occurs among the first
`nEvent` trials, exactly 1,000,000 generations are attempted and the loop
is not stopped early. -/
theorem C8_trial_count (gen : ℕ → List PartonIn → Option (List Particle)) (smass : ℚ)
    (hok : ∀ k, k < nEvent → gen k [quarkEntry smass, antiquarkEntry smass] ≠ none) :
    nEvent = 1000000 ∧
    (runConfig gen smass).attempted = 1000000 ∧
    (runConfig gen smass).failed = false := by
  have h := runTrialsFrom_noFail gen smass nEvent freshHist [] 0
    (fun j _ hj2 => hok j (by omega))
  exact ⟨rfl, h.1, h.2⟩

/-- Claim C8 witness: a generator that always succeeds with an empty
record. -/
theorem C8_trial_count_witness :
    nEvent = 1000000 ∧
    (runConfig emptyNext 5).attempted = 1000000 ∧
    (runConfig emptyNext 5).failed = false :=
  C8_trial_count emptyNext 5 (fun k _ => by simp [emptyNext])

/-- Claim C9: every prepared event record handed to the generator is
exactly the reset-then-appended pair — the quark with id `qid` and the
antiquark with id `-qid`, both with status 23 — independent of any earlier
record state; the histogram is the in-order scan of each trial's own
outcome (each trial contributing exactly once); and each configuration's
series is built from its own oracle alone, starting from the fresh
histogram. -/
theorem C9_per_trial_isolation (oracle : ℕ → GenOracle)
    (h0 : (oracle 0).initOk = true) (h1 : (oracle 1).initOk = true)
    (h2 : (oracle 2).initOk = true) :
    (∀ (gen : ℕ → List PartonIn → Option (List Particle)) (smass : ℚ)
        (h : Hist) (ev : List PartonIn) (i n : ℕ),
      ∀ p ∈ (runTrialsFrom gen smass h ev i n).prepared,
        p = [quarkEntry smass, antiquarkEntry smass]) ∧
    (∀ smass : ℚ,
      (quarkEntry smass).pid = qid ∧ (quarkEntry smass).status = 23 ∧
      (antiquarkEntry smass).pid = -qid ∧ (antiquarkEntry smass).status = 23) ∧
    (∀ (gen : ℕ → List PartonIn → Option (List Particle)) (smass : ℚ)
        (h : Hist) (ev : List PartonIn) (i n : ℕ),
      (runTrialsFrom gen smass h ev i n).hist = histSeg gen smass h i n) ∧
    seriesOf (runMain oracle).1
      = [mkSeries (runTrialsFrom (oracle 0).next 5 freshHist [] 0 nEvent).hist
           "steelblue" 5,
         mkSeries (runTrialsFrom (oracle 1).next 20 freshHist [] 0 nEvent).hist
           "seagreen" 20,
         mkSeries (runTrialsFrom (oracle 2).next 100 freshHist [] 0 nEvent).hist
           "indianred" 100] := by
  refine ⟨fun gen smass h ev i n => runTrialsFrom_prepared gen smass n h ev i,
    fun smass => ⟨rfl, rfl, rfl, rfl⟩,
    fun gen smass h ev i n => runTrialsFrom_hist gen smass n h ev i, ?_⟩
  rw [runMain_allInit oracle h0 h1 h2]
  rfl

/-- Claim C9 witness: the concrete all-initialized run. -/
theorem C9_per_trial_isolation_witness :
    seriesOf (runMain immediateFailOracle).1
      = [mkSeries (runTrialsFrom (immediateFailOracle 0).next 5 freshHist [] 0 nEvent).hist
           "steelblue" 5,
         mkSeries (runTrialsFrom (immediateFailOracle 1).next 20 freshHist [] 0 nEvent).hist
           "seagreen" 20,
         mkSeries (runTrialsFrom (immediateFailOracle 2).next 100 freshHist [] 0 nEvent).hist
           "indianred" 100] :=
  (C9_per_trial_isolation immediateFailOracle rfl rfl rfl).2.2.2

/-- A digit character is not the decimal point. -/
theorem isDigit_ne_dot {c : Char} (h : c.isDigit = true) : c ≠ '.' := by
  intro hdot
  rw [hdot] at h
  exact absurd h (by decide)

/-- Claim C10: `to_string_2dp` renders fixed decimal notation with exactly
two digits after the decimal point: the output is a prefix containing no
decimal point, then ".", then exactly two digit characters; the rendered
hundredths value is the input rounded to within half a unit; natural-number
inputs render as their decimal digits followed by ".00" (in particular 5
renders as "5.00"); and equal inputs give equal outputs. -/
theorem C10_format_2dp (val : ℚ) :
    (∃ pre : String,
      to_string_2dp val
        = pre ++ "." ++ twoDigits ((roundHalfEven (val * 100)).natAbs % 100) ∧
      (∀ c ∈ pre.data, c ≠ '.')) ∧
    (twoDigits ((roundHalfEven (val * 100)).natAbs % 100)).length = 2 ∧
    (∀ c ∈ (twoDigits ((roundHalfEven (val * 100)).natAbs % 100)).data,
      c.isDigit = true) ∧
    |((roundHalfEven (val * 100) : ℤ) : ℚ) - val * 100| ≤ 1 / 2 ∧
    (∀ n : ℕ, val = (n : ℚ) →
      to_string_2dp val = String.mk (decDigits n) ++ ".00") ∧
    (to_string_2dp (5 : ℚ) = "5.00") ∧
    (∀ w : ℚ, val = w → to_string_2dp val = to_string_2dp w) := by
  refine ⟨⟨(if val < 0 then "-" else "")
      ++ String.mk (decDigits ((roundHalfEven (val * 100)).natAbs / 100)), rfl, ?_⟩,
    twoDigits_length _, twoDigits_digits _, roundHalfEven_close _, ?_,
    to_string_2dp_five, ?_⟩
  · intro c hc
    by_cases hneg : val < 0
    · have hdata : ((if val < 0 then "-" else "")
          ++ String.mk (decDigits ((roundHalfEven (val * 100)).natAbs / 100))).data
          = '-' :: decDigits ((roundHalfEven (val * 100)).natAbs / 100) := by
        rw [if_pos hneg]
        rfl
      rw [hdata] at hc
      rcases List.mem_cons.mp hc with rfl | hin
      · decide
      · exact isDigit_ne_dot (decDigits_digits _ c hin)
    · have hdata : ((if val < 0 then "-" else "")
          ++ String.mk (decDigits ((roundHalfEven (val * 100)).natAbs / 100))).data
          = decDigits ((roundHalfEven (val * 100)).natAbs / 100) := by
        rw [if_neg hneg]
        rfl
      rw [hdata] at hc
      exact isDigit_ne_dot (decDigits_digits _ c hc)
  · intro n hn
    rw [hn]
    exact to_string_2dp_nat n
  · intro w hw
    rw [hw]

/-- Claim C10 witness: the integer 5 renders with two zero digits after the
decimal point. -/
theorem C10_format_2dp_witness :
    to_string_2dp (5 : ℚ) = String.mk (decDigits 5) ++ ".00" :=
  (C10_format_2dp 5).2.2.2.2.1 5 (by norm_num)

end RapidityPlot
